import Mathlib

set_option linter.unusedVariables false

/-!
Verification development for the reference-validation pipeline frontend
(`frontend/lib/api.tsx`, `frontend/app/page.tsx` and the components under
`frontend/components/`).  The TypeScript data model and the pure decision
logic of the frontend are embedded shallowly; parts of the system that live
in the backend server (batch manager, source orchestrator, validation
coordinator, stream producer) are not part of the available sources and are
modelled from the specification where a claim depends on them.  Numeric
quality scores (floats in the original) are modelled as integers; they play
no role in any property proved here.
-/

/-- Change type of a `ValidationChange` (`api.tsx`, interface
`ValidationChange`): one of `added`, `updated`, `unchanged`. -/
inductive ChangeType
  | added
  | updated
  | unchanged
deriving DecidableEq, Repr

/-- Embeds interface `ValidationChange` from `api.tsx`. -/
structure ValidationChange where
  field : String
  type : ChangeType
  before : String
  after : String
deriving DecidableEq, Repr

/-- Embeds interface `ExtractedFields` from `api.tsx`.  An empty string (or
`0` for `year`, `[]` for name lists) stands for an absent value, as in the
JSON payloads of the original. -/
structure ExtractedFields where
  family_names : List String
  given_names : List String
  full_names : Option (List String)
  year : Nat
  title : String
  journal : String
  doi : String
  pages : String
  publisher : String
  url : String
  abstract : String
deriving DecidableEq, Repr

/-- Embeds the `quality_metrics` object of `ParsedReference` (`api.tsx`);
scores are floats in the original and are modelled as integers here. -/
structure QualityMetrics where
  initial_quality_score : Option Int
  quality_improvement : Option Int
  final_quality_score : Option Int
deriving DecidableEq, Repr

/-- Embeds interface `ParsedReference` from `api.tsx`. -/
structure ParsedReference where
  index : Nat
  original_text : String
  parser_used : String
  extracted_fields : ExtractedFields
  quality_metrics : QualityMetrics
  missing_fields : List String
  tagged_output : String
  error : Option String
  api_enrichment_used : Option Bool
  enrichment_sources : Option (List String)
  from_cache : Option Bool
  validation_changes : Option (List ValidationChange)
deriving DecidableEq, Repr

/-! ## File upload validation (`components/file-upload-section.tsx`) -/

/-- The parts of a browser `File` object read by `validateFile`. -/
structure JsFile where
  name : String
  size : Nat
  type : String
deriving DecidableEq, Repr

/-- Embeds interface `FileValidationError` from
`components/file-upload-section.tsx`. -/
structure FileValidationError where
  type : String
  message : String
deriving DecidableEq, Repr

/-- Embeds the `allowedTypes` list inside `validateFile`
(`components/file-upload-section.tsx`). -/
def allowedTypes : List String :=
  ["application/pdf",
   "application/vnd.openxmlformats-officedocument.wordprocessingml.document",
   "application/msword"]

/-- Embeds `validateFile` from `components/file-upload-section.tsx`: a size
check (50 MB limit) followed by a MIME-type check; `none` means the file is
accepted. -/
def validateFile (file : JsFile) : Option FileValidationError :=
  if file.size > 50 * 1024 * 1024 then
    some { type := "size"
         , message := "File size exceeds 50MB limit. Please choose a smaller file." }
  else if file.type ∉ allowedTypes then
    some { type := "type"
         , message := "Invalid file type. Please upload a PDF, DOCX, or DOC file." }
  else
    none

/-! ## Validation change summaries
(`components/validation-changes-view.tsx`, `components/results-dashboard.tsx`) -/

/-- Embeds the `meaningfulChanges` computation of `ValidationChangesView`
(`components/validation-changes-view.tsx`): the user-facing change list
drops entries of type `unchanged`. -/
def meaningfulChanges (changes : List ValidationChange) : List ValidationChange :=
  changes.filter (fun c => decide (c.type ≠ ChangeType.unchanged))

/-- Embeds the `totalValidationChanges` aggregate of `ResultsDashboard`
(`components/results-dashboard.tsx`): the reduce over references summing,
per reference, the number of validation changes whose type is not
`unchanged`. -/
def totalValidationChanges (references : List ParsedReference) : Nat :=
  references.foldl
    (fun total ref =>
      total +
        ((ref.validation_changes.getD []).filter
          (fun c => decide (c.type ≠ ChangeType.unchanged))).length)
    0

/-! ## The Process New File button (`components/results-dashboard.tsx`) -/

/-- The identifiers bound in the body of the `ResultsDashboard` component
(`components/results-dashboard.tsx`): its props (`data`, `onNewFile`,
`onViewReferences`), its state pair, the module-level helper and imports,
and the locals computed in the component body.  `setHasResults`, called by
the Process New File button, is not among them. -/
def resultsDashboardScope : List String :=
  ["data", "onNewFile", "onViewReferences",
   "activeTab", "setActiveTab",
   "formatFileSize", "useState",
   "BarChart3", "FileText", "CheckCircle", "AlertTriangle", "Database",
   "Download", "RefreshCw", "Eye", "Copy",
   "Card", "CardContent", "CardHeader", "CardTitle",
   "Badge", "Button", "Progress", "Separator",
   "Tabs", "TabsContent", "TabsList", "TabsTrigger",
   "references", "totalReferences", "successfullyProcessed",
   "fieldsExtracted", "missingFields", "apiEnriched", "nerParsed",
   "withValidationChanges", "totalValidationChanges", "avgConfidence",
   "qualityScore", "stats", "fileInfo", "exportOptions"]

/-- Outcome of running a click handler: either the list of functions it
invoked, or a JavaScript `ReferenceError` on an unresolvable identifier. -/
inductive ClickOutcome
  | callbacks (invoked : List String)
  | referenceError (name : String)
deriving DecidableEq, Repr

/-- Embeds the `onClick` handler of the Process New File button
(`components/results-dashboard.tsx` line 158): the handler body is
`setHasResults(false)`; resolving the identifier against the component
scope either calls it or raises a `ReferenceError`. -/
def processNewFileClick : ClickOutcome :=
  if resultsDashboardScope.contains "setHasResults" then
    ClickOutcome.callbacks ["setHasResults"]
  else
    ClickOutcome.referenceError "setHasResults"

/-! ## The validate-batch request (`lib/api.tsx`, `app/page.tsx`) -/

/-- Embeds type `ValidationMode` from `api.tsx`. -/
inductive ValidationMode
  | quick
  | standard
  | thorough
  | custom
deriving DecidableEq, Repr

/-- String form of a validation mode, as appended to the form data. -/
def ValidationMode.asString : ValidationMode → String
  | .quick => "quick"
  | .standard => "standard"
  | .thorough => "thorough"
  | .custom => "custom"

/-- JSON serialization of a number array, as produced by
`JSON.stringify(selectedIndices)` in `ApiClient.validateBatch`. -/
def jsonNumberArray (xs : List Nat) : String :=
  "[" ++ String.intercalate "," (xs.map (fun n => toString n)) ++ "]"

/-- The HTTP request assembled by `ApiClient.validateBatch`: target URL and
multipart form fields. -/
structure ValidateBatchRequest where
  url : String
  formData : List (String × String)
deriving DecidableEq, Repr

/-- Embeds the request construction of `ApiClient.validateBatch`
(`lib/api.tsx` lines 565-587).  The declared parameters are
`(batchId, mode, selectedIndices?, onProgress?)`; the form data carries
`mode` always and `selected_indices` when a non-empty list was supplied.
No other field is ever appended. -/
def validateBatchRequest (batchId : String) (mode : ValidationMode)
    (selectedIndices : Option (List Nat)) : ValidateBatchRequest :=
  { url := "/validate-batch/" ++ batchId
  , formData :=
      [("mode", mode.asString)] ++
        (match selectedIndices with
         | some idxs =>
             if idxs.length > 0 then [("selected_indices", jsonNumberArray idxs)]
             else []
         | none => []) }

/-- Embeds the call made by `Home.handleValidate` (`app/page.tsx` lines
80-111): it receives `(mode, selectedIndices?, selectedApis?)` from
`ValidationControls` and invokes `validateBatch(batch_id, mode,
selectedIndices, onProgress, selectedApis)`.  `ApiClient.validateBatch`
declares only four parameters, so the trailing `selectedApis` argument
binds to nothing and the resulting request is the one built from the first
three arguments alone. -/
def handleValidateRequest (batchId : String) (mode : ValidationMode)
    (selectedIndices : Option (List Nat)) (selectedApis : Option (List String)) :
    ValidateBatchRequest :=
  validateBatchRequest batchId mode selectedIndices

/-! ## The validate-batch stream reader (`lib/api.tsx` lines 601-705)

The reader loop of `ApiClient.validateBatch` accumulates decoded chunks in
a string buffer, splits the buffer on newlines keeping the trailing
incomplete line (`buffer = lines.pop()`), handles each complete line that
starts with `data: ` (breaking out of the line loop on the `[DONE]`
end-of-stream marker), and on end of stream processes a final non-blank
buffered `data: ` line.  Byte streams are modelled as `List Char`. -/

/-- Prepends one character to the front of the first line of a split (the
character belongs to the pending line when no complete line exists yet). -/
def consSplit (c : Char) : List (List Char) × List Char → List (List Char) × List Char
  | ([], t) => ([], c :: t)
  | (l :: ls, t) => ((c :: l) :: ls, t)

/-- Splits a character stream on `\n` exactly like JavaScript
`buffer.split('\n')` followed by `lines.pop()`: the first component is the
list of complete (newline-terminated) lines, the second the trailing
incomplete line. -/
def splitLines : List Char → List (List Char) × List Char
  | [] => ([], [])
  | c :: cs =>
    if c = '\n' then ([] :: (splitLines cs).1, (splitLines cs).2)
    else consSplit c (splitLines cs)

/-- Continuation of a split by a pending trailing line: the pending text is
glued onto the first line of the continuation. -/
def joinSplit (pending : List Char) :
    List (List Char) × List Char → List (List Char) × List Char
  | ([], t) => ([], pending ++ t)
  | (l :: ls, t) => ((pending ++ l) :: ls, t)

/-- The `data: ` prefix that labels an event line of the stream. -/
def dataPrefix : List Char := ("data: ").data

/-- Whether a line carries an event payload (`line.startsWith('data: ')`). -/
def isDataLine (line : List Char) : Bool := dataPrefix.isPrefixOf line

/-- The payload of a data line (`line.slice(6)`). -/
def payloadOf (line : List Char) : List Char := line.drop 6

/-- JavaScript whitespace as tested by `String.trim` (the characters that
occur in this protocol). -/
def isJsWhitespace (c : Char) : Bool :=
  (c = ' ') || (c = '\n') || (c = '\t') || (c = '\r')

/-- Embeds JavaScript `String.trim`. -/
def trimChars (l : List Char) : List Char :=
  ((l.dropWhile isJsWhitespace).reverse.dropWhile isJsWhitespace).reverse

/-- The end-of-stream marker payload. -/
def doneMarkerChars : List Char := ("[DONE]").data

/-- Whether a payload is the end-of-stream marker
(`data.trim() === '[DONE]'`). -/
def isDoneMarker (payload : List Char) : Bool :=
  decide (trimChars payload = doneMarkerChars)

/-- Embeds the `for (const line of lines)` loop of the reader: each line
starting with `data: ` yields its payload, and the `[DONE]` marker breaks
out of the loop, dropping the remaining lines of this batch. -/
def processBatch : List (List Char) → List (List Char)
  | [] => []
  | line :: rest =>
    if isDataLine line then
      if isDoneMarker (payloadOf line) then []
      else payloadOf line :: processBatch rest
    else processBatch rest

/-- State of the reader loop: the pending incomplete line and the payloads
handed to `JSON.parse` so far. -/
structure ReaderState where
  buffer : List Char
  parsed : List (List Char)
deriving DecidableEq, Repr

/-- Embeds one iteration of the `while (true)` reader loop on a non-final
chunk: append the chunk to the buffer, split into lines, keep the trailing
incomplete line, process the complete lines. -/
def readChunk (st : ReaderState) (chunk : List Char) : ReaderState :=
  let r := splitLines (st.buffer ++ chunk)
  { buffer := r.2, parsed := st.parsed ++ processBatch r.1 }

/-- Embeds the `done` branch of the reader loop: a final buffered line is
processed when it is non-blank and starts with `data: `. -/
def finishRead (st : ReaderState) : List (List Char) :=
  if trimChars st.buffer ≠ [] then
    if isDataLine st.buffer then st.parsed ++ [payloadOf st.buffer]
    else st.parsed
  else st.parsed

/-- The full reader: fold the chunks through the loop body, then run the
end-of-stream handling.  Returns the payloads handed to `JSON.parse`, in
order. -/
def readerRun (chunks : List (List Char)) : List (List Char) :=
  finishRead (chunks.foldl readChunk { buffer := [], parsed := [] })

/-- Reference line processing without the `[DONE]` break: every data line
except the marker yields its payload. -/
def processSimple (lines : List (List Char)) : List (List Char) :=
  lines.filterMap (fun line =>
    if isDataLine line then
      if isDoneMarker (payloadOf line) then none else some (payloadOf line)
    else none)

/-- No line of the list is a data line. -/
def noDataLines (lines : List (List Char)) : Bool :=
  lines.all (fun l => !(isDataLine l))

/-- Well-formed termination of a line list: once a `[DONE]` marker line
occurs, no further data line follows (the marker, when present, is the last
event of the stream). -/
def okLines : List (List Char) → Bool
  | [] => true
  | line :: rest =>
    if isDataLine line then
      if isDoneMarker (payloadOf line) then noDataLines rest
      else okLines rest
    else okLines rest

/-- The complete data lines of a stream, mapped to their payloads. -/
def completeDataPayloads (stream : List Char) : List (List Char) :=
  (((splitLines stream).1).filter isDataLine).map payloadOf

/-- The final buffered payload of a stream, when the trailing incomplete
line is a non-blank data line. -/
def trailingDataPayload (stream : List Char) : List (List Char) :=
  if trimChars (splitLines stream).2 ≠ [] ∧ isDataLine (splitLines stream).2
  then [payloadOf (splitLines stream).2] else []

/-! ## Typed validation stream events (`lib/api.tsx`)

The producer of the stream is the backend validation coordinator, which is
not among the available sources; the consumer is the event loop of
`ApiClient.validateBatch`.  Events are modelled at the frame level: one
frame per `data:` line (the framing itself is handled by the reader above),
plus the explicit `[DONE]` end-of-stream marker. -/

/-- Embeds interface `ValidationProgress` from `api.tsx`: a typed event of
the validation stream.  `results` is optional on a `complete` event, as in
the TypeScript interface; an empty `message` stands for an absent one. -/
inductive StreamEvent
  | progress (progress current total : Nat) (message : String)
  | result (index : Nat) (data : ParsedReference)
  | complete (results : Option (List ParsedReference)) (message : String)
  | error (message : String)
deriving DecidableEq, Repr

/-- Whether an event is terminal (`complete` or `error`). -/
def StreamEvent.isTerminal : StreamEvent → Bool
  | .complete _ _ => true
  | .error _ => true
  | _ => false

/-- One frame of the server-sent event stream: a `data:` line holding one
event, or the `[DONE]` end-of-stream marker line. -/
inductive Frame
  | data (e : StreamEvent)
  | doneMarker
deriving DecidableEq, Repr

/-- Embeds the event loop of `ApiClient.validateBatch` (`lib/api.tsx` lines
608-702) on a stream that ends at the marker: a `complete` event with a
`results` array replaces the pending final results; an `error` event's
`throw new Error(event.message || 'Validation failed')` (line 681) is
caught by the loop's own per-line `catch` (line 687) and only logged, so
at the result level it leaves the pending results untouched like the
other non-`complete` events, which only feed the progress callback; at
the end of the stream an empty result list raises
`No results received from validation`, otherwise the final results are
returned. -/
def consumeFrames : List Frame → List ParsedReference →
    Except String (List ParsedReference)
  | [], finalResults =>
      if finalResults.isEmpty then
        Except.error "No results received from validation"
      else Except.ok finalResults
  | Frame.doneMarker :: _, finalResults =>
      if finalResults.isEmpty then
        Except.error "No results received from validation"
      else Except.ok finalResults
  | Frame.data e :: rest, finalResults =>
      match e with
      | StreamEvent.complete results _ =>
          consumeFrames rest
            (match results with
             | some rs => rs
             | none => finalResults)
      | _ => consumeFrames rest finalResults

/-- Modelled from the spec: a validation run stream consists of
non-terminal progress/result events followed by exactly one terminal event
and the explicit end-of-stream marker (§6 Validate, §4.4). -/
def wellFormedRun (body : List StreamEvent) (t : StreamEvent) : List Frame :=
  body.map Frame.data ++ [Frame.data t, Frame.doneMarker]

/-! ## Sorting of the delivered reference list

The backend coordinator (not among the available sources) must deliver the
final merged list sorted by original `index`; the frontend returns the
`complete` event's list unchanged. -/

/-- Inserts a reference into a list sorted by `index`, keeping it sorted. -/
def insertByIndex (r : ParsedReference) :
    List ParsedReference → List ParsedReference
  | [] => [r]
  | x :: xs =>
      if r.index ≤ x.index then r :: x :: xs else x :: insertByIndex r xs

/-- Modelled from the spec: the final merged reference list is sorted by
original `index` before delivery (§4.4, §5); insertion sort on the index
field. -/
def sortByIndex (refs : List ParsedReference) : List ParsedReference :=
  refs.foldr insertByIndex []

/-! ## Validation mode selection

The selection policy itself runs in the backend coordinator (not among the
available sources) and is modelled from the spec; the frontend contributes
`selectNeedingValidation`, which pre-selects the references needing
validation in the review UI. -/

/-- Embeds `selectNeedingValidation` from
`components/parsed-references-view.tsx` lines 58-64: the positions of the
references whose `missing_fields` list is non-empty. -/
def selectNeedingValidation (references : List ParsedReference) : List Nat :=
  ((references.enum).filter
    (fun p => decide (p.2.missing_fields ≠ []))).map (fun p => p.1)

/-- Modelled from the spec: the validation mode selection table (§4.4),
applied before any network call — quick selects the references missing a
DOI, standard those with non-empty `missing_fields`, thorough all
references, custom exactly the caller-supplied index list. -/
def selectByMode (mode : ValidationMode) (refs : List ParsedReference)
    (customIndices : List Nat) : List Nat :=
  match mode with
  | .quick =>
      (refs.filter (fun r => decide (r.extracted_fields.doi = ""))).map
        (fun r => r.index)
  | .standard =>
      (refs.filter (fun r => decide (r.missing_fields ≠ []))).map
        (fun r => r.index)
  | .thorough => refs.map (fun r => r.index)
  | .custom => customIndices

/-! ## Source orchestration and merging

The Source Orchestrator runs in the backend (not among the available
sources); it is modelled from the spec §4.3: fan out to the candidate
sources, drop failed or timed-out sources, merge field candidates in a
fixed priority order, track changes, recompute `missing_fields`. -/

/-- Modelled from the spec: the fixed source priority order of the merge
step (§4.3 step 4). -/
def sourcePriority : List String :=
  ["crossref", "openalex", "semantic_scholar", "doaj", "pubmed", "arxiv"]

/-- Modelled from the spec: one source's successful response — a source
tag and candidate values per canonical field.  A source that fails or
times out contributes no response at all (§4.3 step 2). -/
structure SourceResponse where
  source : String
  fields : List (String × String)
deriving DecidableEq, Repr

/-- The candidate value a response offers for a field (empty when none). -/
def lookupField (field : String) (resp : SourceResponse) : String :=
  match resp.fields.find? (fun p => decide (p.1 = field)) with
  | some p => p.2
  | none => ""

/-- Modelled from the spec: the responses that arrived, arranged in the
fixed priority order (§4.3 step 4). -/
def orderResponses (responses : List SourceResponse) : List SourceResponse :=
  sourcePriority.filterMap
    (fun s => responses.find? (fun r => decide (r.source = s)))

/-- The first non-empty candidate for a field among priority-ordered
responses. -/
def firstCandidate (ordered : List SourceResponse) (field : String) : String :=
  match ordered.find? (fun r => decide (lookupField field r ≠ "")) with
  | some r => lookupField field r
  | none => ""

/-- Modelled from the spec: merging one field — an existing value is
overwritten only by a non-empty, different merged value; the outcome is
recorded as a `ValidationChange` (`added` when the field was empty,
`updated` when it changed, `unchanged` otherwise). -/
def mergeField (name current candidate : String) : String × ValidationChange :=
  if candidate ≠ "" ∧ candidate ≠ current then
    (candidate,
     { field := name
     , type := if current = "" then ChangeType.added else ChangeType.updated
     , before := current
     , after := candidate })
  else
    (current,
     { field := name
     , type := ChangeType.unchanged
     , before := current
     , after := current })

/-- Modelled from the spec: the canonical required scalar fields from
which `missing_fields` is derived. -/
def requiredFields : List String :=
  ["title", "journal", "doi", "pages", "publisher", "url"]

/-- Reads a canonical scalar field of `ExtractedFields` by name. -/
def getField (f : ExtractedFields) : String → String
  | "title" => f.title
  | "journal" => f.journal
  | "doi" => f.doi
  | "pages" => f.pages
  | "publisher" => f.publisher
  | "url" => f.url
  | _ => ""

/-- Writes a canonical scalar field of `ExtractedFields` by name. -/
def setField (f : ExtractedFields) (name value : String) : ExtractedFields :=
  match name with
  | "title" => { f with title := value }
  | "journal" => { f with journal := value }
  | "doi" => { f with doi := value }
  | "pages" => { f with pages := value }
  | "publisher" => { f with publisher := value }
  | "url" => { f with url := value }
  | _ => f

/-- Modelled from the spec: the merge of §4.3 step 4 over all canonical
fields, producing the updated fields and the change list. -/
def applyMerge (f : ExtractedFields) (responses : List SourceResponse) :
    ExtractedFields × List ValidationChange :=
  requiredFields.foldl
    (fun acc name =>
      let m := mergeField name (getField acc.1 name)
        (firstCandidate (orderResponses responses) name)
      (setField acc.1 name m.1, acc.2 ++ [m.2]))
    (f, [])

/-- Modelled from the spec: `missing_fields` is always recomputed from the
extracted fields — the canonical required fields whose value is empty. -/
def computeMissingFields (f : ExtractedFields) : List String :=
  requiredFields.filter (fun name => decide (getField f name = ""))

/-- Modelled from the spec: the Source Orchestrator resolves one reference
(§4.3 steps 4-5): merge the responses, recompute `missing_fields`, record
the change list and the sources used.  Absence of responses is not an
error: the reference is marked as attempted, never errored (§4.3 failure
semantics). -/
def enrichReference (r : ParsedReference) (responses : List SourceResponse) :
    ParsedReference :=
  let m := applyMerge r.extracted_fields responses
  { r with
    extracted_fields := m.1
    missing_fields := computeMissingFields m.1
    validation_changes := some m.2
    api_enrichment_used := some (decide (meaningfulChanges m.2 ≠ []))
    enrichment_sources := some ((orderResponses responses).map (fun s => s.source)) }

/-- Modelled from the spec: the Validation Coordinator run (§4.4): one
result frame per processed reference, then exactly one `complete` frame
carrying the full updated list sorted by index, then the end-of-stream
marker.  Absorbed source failures never produce an `error` frame. -/
def coordinatorRun (refs : List ParsedReference)
    (responsesFor : Nat → List SourceResponse) : List Frame :=
  (refs.map (fun r =>
      Frame.data (StreamEvent.result r.index
        (enrichReference r (responsesFor r.index)))))
    ++ [Frame.data (StreamEvent.complete
          (some (sortByIndex (refs.map
            (fun r => enrichReference r (responsesFor r.index)))))
          "Validation complete"),
        Frame.doneMarker]

/-! ## Batch lifecycle (spec §4.1) and the frontend re-validation guard -/

/-- Validation status of a batch (spec data model §3). -/
inductive ValidationStatus
  | unvalidated
  | validating
  | validated
deriving DecidableEq, Repr

/-- Modelled from the spec: the batch state owned by the Batch Manager —
status, stored validation result, and the token of the in-flight run. -/
structure BatchState where
  status : ValidationStatus
  validation_result : Option (List ParsedReference)
  holder : Option Nat
deriving DecidableEq, Repr

/-- Structural batch-manager errors (spec §7). -/
inductive BatchErr
  | Conflict
  | Stale
deriving DecidableEq, Repr

/-- Modelled from the spec §4.1: `BeginValidation` fails with `Conflict`
when a run is already in flight, otherwise transitions to `validating` and
hands out an exclusive token; the stored result is kept. -/
def beginValidation (b : BatchState) (token : Nat) :
    Except BatchErr BatchState :=
  if b.status = ValidationStatus.validating then Except.error BatchErr.Conflict
  else Except.ok { b with status := ValidationStatus.validating
                        , holder := some token }

/-- Modelled from the spec §4.1: `CompleteValidation` fails with `Stale`
unless the token matches the current holder; otherwise stores the new
result and sets status `validated`, releasing the token. -/
def completeValidation (b : BatchState) (token : Nat)
    (result : List ParsedReference) : Except BatchErr BatchState :=
  if b.holder = some token then
    Except.ok { status := ValidationStatus.validated
              , validation_result := some result
              , holder := none }
  else Except.error BatchErr.Stale

/-- Modelled from the spec §4.1: `AbortValidation` releases a matching
token and reverts the aborted run's batch to `unvalidated`; a stale or
absent token is rejected. -/
def abortValidation (b : BatchState) (token : Nat) :
    Except BatchErr BatchState :=
  if b.holder = some token then
    Except.ok { b with status := ValidationStatus.unvalidated, holder := none }
  else Except.error BatchErr.Stale

/-- A batch state is coherent when a token is held only during an
in-flight run (every state the Batch Manager produces satisfies this). -/
def TokenCoherent (b : BatchState) : Prop :=
  b.status ≠ ValidationStatus.validating → b.holder = none

/-- Embeds the already-validated check of `Home.handleValidate`
(`app/page.tsx` lines 87-100): when the fetched batch info reports status
`validated` with a stored result, the stored result is loaded and no new
validation request is issued. -/
def alreadyValidatedShortCircuit (validation_status : String)
    (validation_result : Option (List ParsedReference)) : Bool :=
  (validation_status == "validated") && validation_result.isSome

/-! ## Concrete example data (used to instantiate the theorems) -/

/-- Quality metrics with no recorded scores. -/
def emptyQuality : QualityMetrics :=
  { initial_quality_score := none
  , quality_improvement := none
  , final_quality_score := none }

/-- Builds a parsed reference with the given index, title, doi and missing
field list; the remaining fields are empty. -/
def mkRef (i : Nat) (title doi : String) (missing : List String) :
    ParsedReference :=
  { index := i
  , original_text := "ref"
  , parser_used := "simple"
  , extracted_fields :=
      { family_names := [], given_names := [], full_names := none
      , year := 0, title := title, journal := "", doi := doi
      , pages := "", publisher := "", url := "", abstract := "" }
  , quality_metrics := emptyQuality
  , missing_fields := missing
  , tagged_output := ""
  , error := none
  , api_enrichment_used := none
  , enrichment_sources := none
  , from_cache := none
  , validation_changes := none }

/-- The end-to-end scenario of spec §8: reference 0 missing its DOI only,
reference 1 missing title and DOI, reference 2 complete. -/
def scenarioRefs : List ParsedReference :=
  [mkRef 0 "Deep Learning" "" ["doi"],
   mkRef 1 "" "" ["title", "doi"],
   mkRef 2 "Attention" "10.1/x" []]

/-- A sample enriched reference used in stream examples. -/
def exampleReference : ParsedReference := mkRef 0 "Deep Learning" "10.2/y" []

/-- A sample non-terminal event body: one progress and one result event. -/
def exampleBody : List StreamEvent :=
  [StreamEvent.progress 50 1 2 "Validating reference 1 of 2",
   StreamEvent.result 0 exampleReference]

/-- A concrete chunk division of a two-event stream in which the first
event line is split across two chunks. -/
def exampleChunks : List (List Char) :=
  [("data: he").data, ("llo" ++ "\n" ++ "da").data,
   ("ta: world").data, ("\n").data]

/-- Two references listed out of index order (completion order). -/
def unorderedRefs : List ParsedReference :=
  [mkRef 2 "Attention" "10.1/x" [], mkRef 0 "Deep Learning" "" ["doi"]]

/-- A validated batch state holding a stored result and no token. -/
def exampleBatch : BatchState :=
  { status := ValidationStatus.validated
  , validation_result := some [exampleReference]
  , holder := none }

/-! ## Helper lemmas -/

/-- Prepending a character to the pending line commutes with gluing the
pending line onto a continuation split. -/
theorem consSplit_joinSplit (c : Char) (t : List Char)
    (r : List (List Char) × List Char) :
    consSplit c (joinSplit t r) = joinSplit (c :: t) r := by
  match r with
  | ([], tb) => rfl
  | (l :: ls, tb) => rfl

/-- Splitting a concatenation: the complete lines of `a` are followed by
the lines obtained from the continuation of the trailing line of `a`
through `b`. -/
theorem splitLines_append (a b : List Char) :
    splitLines (a ++ b)
      = ((splitLines a).1 ++ (joinSplit (splitLines a).2 (splitLines b)).1,
         (joinSplit (splitLines a).2 (splitLines b)).2) := by
  induction a with
  | nil =>
      match hb : splitLines b with
      | ([], t) => simp [splitLines, joinSplit, hb]
      | (l :: ls, t) => simp [splitLines, joinSplit, hb]
  | cons c cs ih =>
      have e1 : (c :: cs) ++ b = c :: (cs ++ b) := rfl
      rw [e1]
      by_cases hc : c = '\n'
      · rw [show splitLines (c :: (cs ++ b))
              = ([] :: (splitLines (cs ++ b)).1, (splitLines (cs ++ b)).2) from by
            simp [splitLines, hc]]
        rw [show splitLines (c :: cs)
              = ([] :: (splitLines cs).1, (splitLines cs).2) from by
            simp [splitLines, hc]]
        rw [ih]
        rfl
      · rw [show splitLines (c :: (cs ++ b)) = consSplit c (splitLines (cs ++ b)) from by
            simp [splitLines, hc]]
        rw [show splitLines (c :: cs) = consSplit c (splitLines cs) from by
            simp [splitLines, hc]]
        rw [ih]
        rcases hcs : splitLines cs with ⟨L, tcs⟩
        cases L with
        | nil =>
            rw [show consSplit c
                  ((([] : List (List Char)) ++ (joinSplit tcs (splitLines b)).1),
                   (joinSplit tcs (splitLines b)).2)
                = joinSplit (c :: tcs) (splitLines b) from
              consSplit_joinSplit c tcs (splitLines b)]
            rfl
        | cons l ls => rfl

/-- The trailing incomplete line of a split contains no newline. -/
theorem splitLines_snd_no_newline (s : List Char) :
    ∀ c ∈ (splitLines s).2, c ≠ '\n' := by
  induction s with
  | nil => intro c hc; simp [splitLines] at hc
  | cons c cs ih =>
      by_cases hc : c = '\n'
      · simpa [splitLines, hc] using ih
      · match hcs : splitLines cs with
        | ([], t) =>
            intro x hx
            simp [splitLines, if_neg hc, hcs, consSplit] at hx
            rcases hx with rfl | hx
            · exact hc
            · exact ih x (by simp [hcs, hx])
        | (l :: ls, t) =>
            intro x hx
            simp [splitLines, if_neg hc, hcs, consSplit] at hx
            exact ih x (by simp [hcs, hx])

/-- A newline-free text splits into no complete line and itself as the
pending line. -/
theorem splitLines_of_no_newline (s : List Char) (h : ∀ c ∈ s, c ≠ '\n') :
    splitLines s = ([], s) := by
  induction s with
  | nil => rfl
  | cons c cs ih =>
      have hc : c ≠ '\n' := h c (by simp)
      have ihs := ih (fun x hx => h x (by simp [hx]))
      simp [splitLines, if_neg hc, ihs, consSplit]

/-- Reference processing distributes over concatenation of line lists. -/
theorem processSimple_append (a b : List (List Char)) :
    processSimple (a ++ b) = processSimple a ++ processSimple b := by
  simp [processSimple, List.filterMap_append]

/-- Unfolding equation for `processSimple` on a cons cell. -/
theorem processSimple_cons (l : List Char) (ls : List (List Char)) :
    processSimple (l :: ls)
      = if isDataLine l then
          if isDoneMarker (payloadOf l) then processSimple ls
          else payloadOf l :: processSimple ls
        else processSimple ls := by
  by_cases hd : isDataLine l = true
  · by_cases hm : isDoneMarker (payloadOf l) = true
    · simp [processSimple, List.filterMap_cons, hd, hm]
    · simp [processSimple, List.filterMap_cons, hd, hm]
  · simp [processSimple, List.filterMap_cons, hd]

/-- Unfolding equation for `processBatch` on a cons cell. -/
theorem processBatch_cons (l : List Char) (ls : List (List Char)) :
    processBatch (l :: ls)
      = if isDataLine l then
          if isDoneMarker (payloadOf l) then []
          else payloadOf l :: processBatch ls
        else processBatch ls := rfl

/-- Unfolding equation for `okLines` on a cons cell. -/
theorem okLines_cons (l : List Char) (ls : List (List Char)) :
    okLines (l :: ls)
      = if isDataLine l then
          if isDoneMarker (payloadOf l) then noDataLines ls else okLines ls
        else okLines ls := rfl

/-- Propositional form of `noDataLines`. -/
theorem noDataLines_iff (lines : List (List Char)) :
    noDataLines lines = true ↔ ∀ l ∈ lines, isDataLine l = false := by
  simp [noDataLines]

/-- A list with no data line contributes no payload. -/
theorem processSimple_of_noData (lines : List (List Char))
    (h : noDataLines lines = true) : processSimple lines = [] := by
  induction lines with
  | nil => rfl
  | cons l ls ih =>
      rw [noDataLines_iff] at h
      have hd : isDataLine l = false := h l (by simp)
      have hrest := ih ((noDataLines_iff ls).mpr fun x hx => h x (by simp [hx]))
      simp [processSimple_cons, hd, hrest]

/-- A list with no data line is trivially well terminated. -/
theorem okLines_of_noData (lines : List (List Char))
    (h : noDataLines lines = true) : okLines lines = true := by
  induction lines with
  | nil => rfl
  | cons l ls ih =>
      rw [noDataLines_iff] at h
      have hd : isDataLine l = false := h l (by simp)
      have hrest := ih ((noDataLines_iff ls).mpr fun x hx => h x (by simp [hx]))
      simp [okLines_cons, hd, hrest]

/-- Well-terminatedness restricts to a prefix of the line list. -/
theorem okLines_append_left (a b : List (List Char))
    (h : okLines (a ++ b) = true) : okLines a = true := by
  induction a with
  | nil => rfl
  | cons l ls ih =>
      rw [List.cons_append, okLines_cons] at h
      rw [okLines_cons]
      by_cases hd : isDataLine l = true
      · by_cases hm : isDoneMarker (payloadOf l) = true
        · simp only [hd, hm, if_true] at h ⊢
          rw [noDataLines_iff] at h ⊢
          exact fun x hx => h x (by simp [hx])
        · simp only [hd, hm, if_true, Bool.false_eq_true, if_false] at h ⊢
          exact ih h
      · have hd2 : isDataLine l = false := by simpa using hd
        simp only [hd2, Bool.false_eq_true, if_false] at h ⊢
        exact ih h

/-- Well-terminatedness restricts to a suffix of the line list. -/
theorem okLines_append_right (a b : List (List Char))
    (h : okLines (a ++ b) = true) : okLines b = true := by
  induction a with
  | nil => exact h
  | cons l ls ih =>
      rw [List.cons_append, okLines_cons] at h
      by_cases hd : isDataLine l = true
      · by_cases hm : isDoneMarker (payloadOf l) = true
        · simp only [hd, hm, if_true] at h
          rw [noDataLines_iff] at h
          exact okLines_of_noData b ((noDataLines_iff b).mpr
            fun x hx => h x (by simp [hx]))
        · simp only [hd, hm, if_true, Bool.false_eq_true, if_false] at h
          exact ih h
      · have hd2 : isDataLine l = false := by simpa using hd
        simp only [hd2, Bool.false_eq_true, if_false] at h
        exact ih h

/-- On a well-terminated line list the `[DONE]` break of the reader loop
drops only lines that contribute nothing: the loop yields the same
payloads as the reference processing. -/
theorem processBatch_eq_processSimple (lines : List (List Char))
    (h : okLines lines = true) : processBatch lines = processSimple lines := by
  induction lines with
  | nil => rfl
  | cons l ls ih =>
      rw [okLines_cons] at h
      by_cases hd : isDataLine l = true
      · by_cases hm : isDoneMarker (payloadOf l) = true
        · simp only [hd, hm, if_true] at h
          simp [processBatch_cons, processSimple_cons, hd, hm,
            processSimple_of_noData ls h]
        · simp only [hd, hm, if_true, Bool.false_eq_true, if_false] at h
          simp [processBatch_cons, processSimple_cons, hd, hm, ih h]
      · have hd2 : isDataLine l = false := by simpa using hd
        simp only [hd2, Bool.false_eq_true, if_false] at h
        simp [processBatch_cons, processSimple_cons, hd2, ih h]

/-- When no `[DONE]` marker occurs among the lines, the payloads are
exactly the data lines, in order, each once. -/
theorem processSimple_of_noMarker (lines : List (List Char))
    (h : lines.all (fun l => !(isDataLine l && isDoneMarker (payloadOf l))) = true) :
    processSimple lines = (lines.filter isDataLine).map payloadOf := by
  induction lines with
  | nil => rfl
  | cons l ls ih =>
      simp only [List.all_cons, Bool.and_eq_true] at h
      by_cases hd : isDataLine l = true
      · have hm : isDoneMarker (payloadOf l) = false := by
          cases hmm : isDoneMarker (payloadOf l)
          · rfl
          · have := h.1
            rw [hd, hmm] at this
            simp at this
        simp [processSimple_cons, List.filter_cons, hd, hm, ih h.2]
      · have hd2 : isDataLine l = false := by simpa using hd
        simp [processSimple_cons, List.filter_cons, hd2, ih h.2]

/-- Invariant of the reader loop: starting from a newline-free pending
buffer, folding any chunk list through `readChunk` yields the pending line
and processed payloads of the concatenated stream. -/
theorem foldl_readChunk (chunks : List (List Char)) :
    ∀ (buf : List Char) (acc : List (List Char)),
      (∀ c ∈ buf, c ≠ '\n') →
      okLines (splitLines (buf ++ chunks.flatten)).1 = true →
      chunks.foldl readChunk { buffer := buf, parsed := acc }
        = { buffer := (splitLines (buf ++ chunks.flatten)).2
          , parsed := acc ++ processSimple (splitLines (buf ++ chunks.flatten)).1 } := by
  induction chunks with
  | nil =>
      intro buf acc hnl hok
      simp [List.foldl_nil, splitLines_of_no_newline buf hnl, processSimple]
  | cons ch rest ih =>
      intro buf acc hnl hok
      have hsplit : splitLines (buf ++ (ch :: rest).flatten)
          = ((splitLines (buf ++ ch)).1
              ++ (joinSplit (splitLines (buf ++ ch)).2 (splitLines rest.flatten)).1,
             (joinSplit (splitLines (buf ++ ch)).2 (splitLines rest.flatten)).2) := by
        rw [List.flatten_cons, ← List.append_assoc]
        exact splitLines_append (buf ++ ch) rest.flatten
      have ht1 : ∀ c ∈ (splitLines (buf ++ ch)).2, c ≠ '\n' :=
        splitLines_snd_no_newline (buf ++ ch)
      have hcont : splitLines ((splitLines (buf ++ ch)).2 ++ rest.flatten)
          = joinSplit (splitLines (buf ++ ch)).2 (splitLines rest.flatten) := by
        rw [splitLines_append, splitLines_of_no_newline _ ht1]
        simp
      rw [hsplit] at hok
      have hok1 : okLines (splitLines (buf ++ ch)).1 = true :=
        okLines_append_left _ _ hok
      have hok2 : okLines
          (joinSplit (splitLines (buf ++ ch)).2 (splitLines rest.flatten)).1 = true :=
        okLines_append_right _ _ hok
      rw [List.foldl_cons]
      have hstep : readChunk { buffer := buf, parsed := acc } ch
          = { buffer := (splitLines (buf ++ ch)).2
            , parsed := acc ++ processBatch (splitLines (buf ++ ch)).1 } := rfl
      rw [hstep, ih _ _ ht1 (by rw [hcont]; exact hok2)]
      rw [hcont, hsplit]
      simp [processSimple_append, processBatch_eq_processSimple _ hok1,
        List.append_assoc]

/-- Folding an addition of per-element contributions equals the sum of the
mapped list. -/
theorem foldl_add_map_sum {α : Type} (f : α → Nat) (l : List α) (n : Nat) :
    l.foldl (fun t r => t + f r) n = n + (l.map f).sum := by
  induction l generalizing n with
  | nil => simp
  | cons x xs ih => simp [List.foldl_cons, ih, Nat.add_assoc]

/-- C9: `validateFile` returns an error exactly for files larger than 50 MB
or whose MIME type is not one of the three allowed document types, and
accepts (returns `none` for) every other file. -/
theorem validateFile_accepts_iff (f : JsFile) :
    ((validateFile f).isSome ↔
      (50 * 1024 * 1024 < f.size ∨ f.type ∉ allowedTypes))
    ∧ (validateFile f = none ↔
      (f.size ≤ 50 * 1024 * 1024 ∧ f.type ∈ allowedTypes)) := by
  unfold validateFile
  by_cases h1 : 50 * 1024 * 1024 < f.size
  · simp [h1]
  · by_cases h2 : f.type ∈ allowedTypes
    · simp [h1, h2, Nat.le_of_not_lt h1]
    · simp [h1, h2]

/-- C7: the user-facing change list of `ValidationChangesView` contains
exactly the entries whose type is not `unchanged` (nothing else is
dropped), and the aggregate change count of `ResultsDashboard` counts
exactly those entries, reference by reference; the full
`validation_changes` list on each reference is left untouched as the input
of both computations. -/
theorem meaningfulChanges_filters_unchanged
    (changes : List ValidationChange) (references : List ParsedReference) :
    (∀ c ∈ meaningfulChanges changes, c.type ≠ ChangeType.unchanged)
    ∧ (∀ c ∈ changes,
        c ∈ meaningfulChanges changes ∨ c.type = ChangeType.unchanged)
    ∧ (meaningfulChanges changes).length
        + (changes.filter (fun c => decide (c.type = ChangeType.unchanged))).length
        = changes.length
    ∧ totalValidationChanges references
        = (references.map
            (fun r => (meaningfulChanges (r.validation_changes.getD [])).length)).sum := by
  refine ⟨?_, ?_, ?_, ?_⟩
  · intro c hc
    have := List.of_mem_filter hc
    simpa using this
  · intro c hc
    by_cases h : c.type = ChangeType.unchanged
    · exact Or.inr h
    · exact Or.inl (List.mem_filter.mpr ⟨hc, by simpa using h⟩)
  · induction changes with
    | nil => rfl
    | cons c cs ih =>
        by_cases h : c.type = ChangeType.unchanged <;>
          simp [meaningfulChanges, List.filter_cons, h] at ih ⊢ <;> omega
  · show totalValidationChanges references = _
    unfold totalValidationChanges meaningfulChanges
    simpa using foldl_add_map_sum
      (fun ref => ((ref.validation_changes.getD []).filter
        (fun c => decide (c.type ≠ ChangeType.unchanged))).length) references 0

/-- C10 evaluation: clicking the Process New File button resolves the
identifier `setHasResults`, which is not bound in the `ResultsDashboard`
component, so the click raises a `ReferenceError` and invokes no callback
(in particular not `onNewFile`). -/
theorem processNewFileClick_referenceError :
    processNewFileClick = ClickOutcome.referenceError "setHasResults"
    ∧ ∀ invoked, processNewFileClick ≠ ClickOutcome.callbacks invoked := by
  have h : processNewFileClick = ClickOutcome.referenceError "setHasResults" := by
    decide
  exact ⟨h, fun invoked hc => by rw [h] at hc; exact ClickOutcome.noConfusion hc⟩

/-- C4 evaluation: the validate request sent for a batch is independent of
the `selectedApis` argument supplied by the caller, its form data only ever
carries the keys `mode` and `selected_indices`, and at the concrete input
(mode `standard`, no indices, sources `["crossref"]`) the request carries
no source subset at all. -/
theorem validateBatchRequest_drops_sources :
    (∀ batchId mode si apis1 apis2,
       handleValidateRequest batchId mode si apis1
         = handleValidateRequest batchId mode si apis2)
    ∧ (∀ batchId mode si apis kv,
        kv ∈ (handleValidateRequest batchId mode si apis).formData →
          kv.1 = "mode" ∨ kv.1 = "selected_indices")
    ∧ handleValidateRequest "batch-1" ValidationMode.standard none
        (some ["crossref"])
        = { url := "/validate-batch/batch-1"
          , formData := [("mode", "standard")] } := by
  refine ⟨fun _ _ _ _ _ => rfl, ?_, rfl⟩
  intro batchId mode si apis kv hkv
  unfold handleValidateRequest validateBatchRequest at hkv
  simp at hkv
  rcases hkv with h | h
  · left; rw [h]
  · match si with
    | none => simp at h
    | some idxs =>
        simp at h
        right; rw [h.2]

/-- Non-terminal events do not modify the pending final results of the
event loop. -/
theorem consumeFrames_nonterminal (body : List StreamEvent) (rest : List Frame)
    (acc : List ParsedReference)
    (h : ∀ e ∈ body, e.isTerminal = false) :
    consumeFrames (body.map Frame.data ++ rest) acc = consumeFrames rest acc := by
  induction body generalizing acc with
  | nil => rfl
  | cons e es ih =>
      have he := h e (by simp)
      have hes : ∀ x ∈ es, x.isTerminal = false := fun x hx => h x (by simp [hx])
      rw [List.map_cons, List.cons_append]
      match e with
      | StreamEvent.progress p c t m => exact ih acc hes
      | StreamEvent.result i d => exact ih acc hes
      | StreamEvent.complete rs m => simp [StreamEvent.isTerminal] at he
      | StreamEvent.error m => simp [StreamEvent.isTerminal] at he

/-- Membership in an insertion. -/
theorem mem_insertByIndex (r x : ParsedReference) (l : List ParsedReference) :
    x ∈ insertByIndex r l ↔ x = r ∨ x ∈ l := by
  induction l with
  | nil => simp [insertByIndex]
  | cons y ys ih =>
      by_cases h : r.index ≤ y.index
      · simp [insertByIndex, h]
      · simp only [insertByIndex, h, if_false, List.mem_cons, ih]
        tauto

/-- Insertion grows the length by one. -/
theorem length_insertByIndex (r : ParsedReference) (l : List ParsedReference) :
    (insertByIndex r l).length = l.length + 1 := by
  induction l with
  | nil => rfl
  | cons y ys ih =>
      by_cases h : r.index ≤ y.index
      · simp [insertByIndex, h]
      · simp [insertByIndex, h, ih]

/-- Insertion preserves sortedness by index. -/
theorem pairwise_insertByIndex (r : ParsedReference) (l : List ParsedReference)
    (h : l.Pairwise (fun a b => a.index ≤ b.index)) :
    (insertByIndex r l).Pairwise (fun a b => a.index ≤ b.index) := by
  induction l with
  | nil => simp [insertByIndex]
  | cons y ys ih =>
      rw [List.pairwise_cons] at h
      by_cases hle : r.index ≤ y.index
      · rw [show insertByIndex r (y :: ys) = r :: y :: ys from by
          simp [insertByIndex, hle]]
        refine List.pairwise_cons.mpr ⟨?_, List.pairwise_cons.mpr h⟩
        intro z hz
        rcases List.mem_cons.mp hz with rfl | hz2
        · exact hle
        · exact Nat.le_trans hle (h.1 z hz2)
      · rw [show insertByIndex r (y :: ys) = y :: insertByIndex r ys from by
          simp [insertByIndex, hle]]
        refine List.pairwise_cons.mpr ⟨?_, ih h.2⟩
        intro z hz
        rcases (mem_insertByIndex r z ys).mp hz with rfl | hz2
        · exact Nat.le_of_not_le hle
        · exact h.1 z hz2

/-- The sort by index is sorted. -/
theorem sortByIndex_sorted (refs : List ParsedReference) :
    (sortByIndex refs).Pairwise (fun a b => a.index ≤ b.index) := by
  induction refs with
  | nil => simp [sortByIndex]
  | cons r rest ih =>
      show (insertByIndex r (sortByIndex rest)).Pairwise _
      exact pairwise_insertByIndex r _ ih

/-- The sort by index preserves the length. -/
theorem length_sortByIndex (refs : List ParsedReference) :
    (sortByIndex refs).length = refs.length := by
  induction refs with
  | nil => rfl
  | cons r rest ih =>
      show (insertByIndex r (sortByIndex rest)).length = rest.length + 1
      rw [length_insertByIndex, ih]

/-- When every reference's `index` field equals its position, filtering the
enumerated list by a predicate on the reference and keeping positions is
the same as filtering the references and keeping index fields. -/
theorem select_enumFrom (P : ParsedReference → Bool)
    (refs : List ParsedReference) :
    ∀ (n : Nat), (∀ p ∈ refs.enumFrom n, p.2.index = p.1) →
      ((refs.enumFrom n).filter (fun p => P p.2)).map (fun p => p.1)
        = (refs.filter P).map (fun r => r.index) := by
  induction refs with
  | nil => intro n h; rfl
  | cons r rest ih =>
      intro n h
      have hr : r.index = n := h (n, r) (by simp)
      have hrest := ih (n + 1) (fun p hp => h p (by
        rw [List.enumFrom_cons]
        exact List.mem_cons_of_mem _ hp))
      by_cases hP : P r = true
      · simp [List.filter_cons, hP, hrest, hr]
      · have hP2 : P r = false := by simpa using hP
        simp [List.filter_cons, hP2, hrest]

/-- Membership characterization of a filtered index selection when every
reference's `index` field equals its position. -/
theorem mem_filter_map_index (P : ParsedReference → Bool)
    (refs : List ParsedReference)
    (hidx : ∀ (i : Nat) (h : i < refs.length), (refs.get ⟨i, h⟩).index = i)
    (i : Nat) (h : i < refs.length) :
    (i ∈ (refs.filter P).map (fun r => r.index))
      ↔ P (refs.get ⟨i, h⟩) = true := by
  constructor
  · intro hi
    obtain ⟨r, hrmem, hri⟩ := List.mem_map.mp hi
    obtain ⟨hrin, hPr⟩ := List.mem_filter.mp hrmem
    obtain ⟨j, hre⟩ := List.mem_iff_get.mp hrin
    have hj1 : r.index = j.1 := by
      rw [← hre]
      exact hidx j.1 j.2
    have hji : j.1 = i := by rw [← hj1, hri]
    have hfin : j = (⟨i, h⟩ : Fin refs.length) := Fin.ext hji
    rw [hfin] at hre
    rw [← hre] at hPr
    exact hPr
  · intro hP
    exact List.mem_map.mpr ⟨refs.get ⟨i, h⟩,
      List.mem_filter.mpr ⟨List.get_mem refs i h, hP⟩, hidx i h⟩

/-- With no responses the merge changes nothing: it returns the fields
unchanged together with one `unchanged` entry per canonical field. -/
theorem applyMerge_nil (f : ExtractedFields) :
    applyMerge f []
      = (f, requiredFields.map (fun name =>
          { field := name, type := ChangeType.unchanged
          , before := getField f name, after := getField f name })) := by
  simp [applyMerge, requiredFields, orderResponses, sourcePriority,
    firstCandidate, mergeField, getField, setField]

/-- The all-`unchanged` change list has no meaningful changes. -/
theorem meaningfulChanges_allUnchanged (f : ExtractedFields) :
    meaningfulChanges (requiredFields.map (fun name =>
      { field := name, type := ChangeType.unchanged
      , before := getField f name, after := getField f name })) = [] := rfl

/-- Wrapping each emitted event in a data frame is mapping `Frame.data`
over the event list. -/
theorem map_frame_data (f : ParsedReference → StreamEvent)
    (refs : List ParsedReference) :
    refs.map (fun r => Frame.data (f r)) = (refs.map f).map Frame.data := by
  rw [List.map_map]
  rfl

/-- A coordinator run is always consumed as a successful completion
carrying the sorted updated reference list. -/
theorem coordinatorRun_completes (refs : List ParsedReference)
    (respFor : Nat → List SourceResponse) (hne : refs ≠ []) :
    consumeFrames (coordinatorRun refs respFor) []
      = Except.ok (sortByIndex (refs.map
          (fun q => enrichReference q (respFor q.index)))) := by
  unfold coordinatorRun
  rw [show (fun r => Frame.data (StreamEvent.result r.index
        (enrichReference r (respFor r.index))))
      = (fun r => Frame.data ((fun q => StreamEvent.result q.index
          (enrichReference q (respFor q.index))) r)) from rfl]
  rw [map_frame_data (fun q => StreamEvent.result q.index
    (enrichReference q (respFor q.index))) refs]
  rw [consumeFrames_nonterminal _ _ [] (by
    intro e he
    obtain ⟨q, hq, hqe⟩ := List.mem_map.mp he
    rw [← hqe]
    rfl)]
  obtain ⟨a, as, hsort⟩ : ∃ a as,
      sortByIndex (refs.map (fun q => enrichReference q (respFor q.index)))
        = a :: as := by
    cases hq : sortByIndex (refs.map
        (fun q => enrichReference q (respFor q.index))) with
    | nil =>
        exfalso
        have hlen := length_sortByIndex (refs.map
          (fun q => enrichReference q (respFor q.index)))
        rw [hq] at hlen
        simp only [List.length_nil, List.length_map] at hlen
        exact hne (List.length_eq_zero.mp hlen.symm)
    | cons a as => exact ⟨a, as, rfl⟩
  rw [hsort]
  rfl

/-! ## Claim theorems for the stream protocol and the pipeline -/

/-- C8: for every server-sent event character stream whose `[DONE]` marker
(when present) is not followed by further data lines, and for every way of
splitting the stream into chunks, the reader of `ApiClient.validateBatch`
hands exactly the same payloads to `JSON.parse` as on the unsplit stream —
a line split across chunk boundaries is held in the buffer until its
terminating newline arrives — and on a marker-free stream those payloads
are exactly the complete `data:` lines, once each in order, plus the final
buffered `data:` line processed when the stream ends. -/
theorem validateBatch_reader_parses_once (chunks : List (List Char))
    (hok : okLines (splitLines chunks.flatten).1 = true) :
    readerRun chunks = readerRun [chunks.flatten]
    ∧ ((splitLines chunks.flatten).1.all
          (fun l => !(isDataLine l && isDoneMarker (payloadOf l))) = true →
        readerRun chunks
          = completeDataPayloads chunks.flatten
            ++ trailingDataPayload chunks.flatten) := by
  have hrun : ∀ (cs : List (List Char)),
      okLines (splitLines cs.flatten).1 = true →
      cs.foldl readChunk { buffer := [], parsed := [] }
        = { buffer := (splitLines cs.flatten).2
          , parsed := processSimple (splitLines cs.flatten).1 } := by
    intro cs hcs
    have h0 := foldl_readChunk cs [] [] (by simp) (by simpa using hcs)
    simpa using h0
  have hflat : ([chunks.flatten] : List (List Char)).flatten = chunks.flatten := by
    simp
  have h1 : readerRun chunks
      = finishRead { buffer := (splitLines chunks.flatten).2
                   , parsed := processSimple (splitLines chunks.flatten).1 } := by
    rw [readerRun, hrun chunks hok]
  have h2 : readerRun [chunks.flatten]
      = finishRead { buffer := (splitLines chunks.flatten).2
                   , parsed := processSimple (splitLines chunks.flatten).1 } := by
    rw [readerRun, hrun [chunks.flatten] (by rw [hflat]; exact hok), hflat]
  refine ⟨h1.trans h2.symm, ?_⟩
  intro hnm
  rw [h1, processSimple_of_noMarker _ hnm]
  unfold finishRead completeDataPayloads trailingDataPayload
  by_cases ht : trimChars (splitLines chunks.flatten).2 = []
  · simp [ht]
  · by_cases hdl : isDataLine (splitLines chunks.flatten).2 = true
    · simp [ht, hdl]
    · simp [ht, hdl]

/-- C8 witness: the chunk division `exampleChunks`, which splits an event
line across two chunks, satisfies the well-termination hypothesis and the
reader parses it exactly as the unsplit stream. -/
theorem validateBatch_reader_parses_once_witness :
    okLines (splitLines exampleChunks.flatten).1 = true
    ∧ readerRun exampleChunks = readerRun [exampleChunks.flatten] := by
  refine ⟨by decide, ?_⟩
  exact (validateBatch_reader_parses_once exampleChunks (by decide)).1

/-- C1: for every well-formed validation stream — non-terminal typed
progress/result events followed by exactly one terminal `complete` or
`error` event and the explicit end-of-stream marker — the event loop of
`ApiClient.validateBatch` returns the reference list carried by the
`complete` event, and an error otherwise: on an `error`-terminated run the
event's own throw is swallowed by the loop's per-line catch, no final
results accumulate, and the caller receives the end-of-stream error
`No results received from validation`. -/
theorem validateBatch_stream_outcome (body : List StreamEvent)
    (hbody : ∀ e ∈ body, e.isTerminal = false) :
    (∀ (rs : List ParsedReference) (msg : String), rs ≠ [] →
        consumeFrames (wellFormedRun body
          (StreamEvent.complete (some rs) msg)) []
          = Except.ok rs)
    ∧ (∀ msg : String,
        consumeFrames (wellFormedRun body (StreamEvent.error msg)) []
          = Except.error "No results received from validation") := by
  constructor
  · intro rs msg hne
    rw [wellFormedRun, consumeFrames_nonterminal body _ [] hbody]
    match rs, hne with
    | a :: as, _ => rfl
  · intro msg
    rw [wellFormedRun, consumeFrames_nonterminal body _ [] hbody]
    rfl

/-- C1 witness: a concrete run with one progress and one result event
followed by a `complete` event delivers the completed reference list. -/
theorem validateBatch_stream_outcome_witness :
    (∀ e ∈ exampleBody, e.isTerminal = false)
    ∧ ([exampleReference] : List ParsedReference) ≠ []
    ∧ consumeFrames (wellFormedRun exampleBody
        (StreamEvent.complete (some [exampleReference]) "done")) []
        = Except.ok [exampleReference] := by
  refine ⟨by decide, by simp, ?_⟩
  exact (validateBatch_stream_outcome exampleBody (by decide)).1
    [exampleReference] "done" (by simp)

/-- C5: the list delivered to the caller on completion is exactly the
index-sorted list carried by the `complete` event — the client returns it
unchanged, independently of the completion order of the preceding
progress/result events — and that list is sorted by the references'
original `index`. -/
theorem validateBatch_delivers_sorted (body : List StreamEvent)
    (refs : List ParsedReference) (msg : String)
    (hbody : ∀ e ∈ body, e.isTerminal = false) (hne : refs ≠ []) :
    consumeFrames (wellFormedRun body
        (StreamEvent.complete (some (sortByIndex refs)) msg)) []
      = Except.ok (sortByIndex refs)
    ∧ (sortByIndex refs).Pairwise (fun a b => a.index ≤ b.index) := by
  refine ⟨?_, sortByIndex_sorted refs⟩
  rw [wellFormedRun, consumeFrames_nonterminal body _ [] hbody]
  obtain ⟨a, as, hsort⟩ : ∃ a as, sortByIndex refs = a :: as := by
    cases hq : sortByIndex refs with
    | nil =>
        exfalso
        have hlen := length_sortByIndex refs
        rw [hq] at hlen
        exact hne (List.length_eq_zero.mp hlen.symm)
    | cons a as => exact ⟨a, as, rfl⟩
  rw [hsort]
  rfl

/-- C5 witness: a stream whose result events arrive out of index order
still delivers the sorted list. -/
theorem validateBatch_delivers_sorted_witness :
    (∀ e ∈ exampleBody, e.isTerminal = false)
    ∧ unorderedRefs ≠ []
    ∧ consumeFrames (wellFormedRun exampleBody
        (StreamEvent.complete (some (sortByIndex unorderedRefs)) "done")) []
        = Except.ok (sortByIndex unorderedRefs) := by
  refine ⟨by decide, by simp [unorderedRefs], ?_⟩
  exact (validateBatch_delivers_sorted exampleBody unorderedRefs "done"
    (by decide) (by simp [unorderedRefs])).1

/-- C2: before any network call, the set of references selected for
enrichment is exactly the mode table — quick selects the references
missing a DOI, standard those with non-empty `missing_fields` (the
frontend pre-selection `selectNeedingValidation` computes exactly the
standard selection), thorough all references in the batch, custom exactly
the caller-supplied index list — for every batch whose references carry
their position as `index`. -/
theorem selection_matches_mode_table (refs : List ParsedReference)
    (customIndices : List Nat)
    (hidx : ∀ (i : Nat) (h : i < refs.length), (refs.get ⟨i, h⟩).index = i) :
    selectNeedingValidation refs
      = selectByMode ValidationMode.standard refs customIndices
    ∧ (∀ (i : Nat) (h : i < refs.length),
        (i ∈ selectByMode ValidationMode.quick refs customIndices
          ↔ (refs.get ⟨i, h⟩).extracted_fields.doi = ""))
    ∧ (∀ (i : Nat) (h : i < refs.length),
        (i ∈ selectByMode ValidationMode.standard refs customIndices
          ↔ (refs.get ⟨i, h⟩).missing_fields ≠ []))
    ∧ (∀ (i : Nat) (h : i < refs.length),
        i ∈ selectByMode ValidationMode.thorough refs customIndices)
    ∧ selectByMode ValidationMode.custom refs customIndices = customIndices := by
  have henum : ∀ p ∈ refs.enumFrom 0, p.2.index = p.1 := by
    refine List.forall_mem_enumFrom.mpr ?_
    intro i hi
    show (refs.get ⟨i, hi⟩).index = 0 + i
    rw [Nat.zero_add]
    exact hidx i hi
  refine ⟨?_, ?_, ?_, ?_, rfl⟩
  · exact select_enumFrom (fun r => decide (r.missing_fields ≠ [])) refs 0 henum
  · intro i h
    show (i ∈ (refs.filter
        (fun r => decide (r.extracted_fields.doi = ""))).map
        (fun r => r.index)) ↔ _
    rw [mem_filter_map_index _ refs hidx i h]
    simp
  · intro i h
    show (i ∈ (refs.filter
        (fun r => decide (r.missing_fields ≠ []))).map
        (fun r => r.index)) ↔ _
    rw [mem_filter_map_index _ refs hidx i h]
    simp
  · intro i h
    exact List.mem_map.mpr ⟨refs.get ⟨i, h⟩, List.get_mem refs i h, hidx i h⟩

/-- C2 witness: the spec scenario batch (reference 0 missing its DOI only,
reference 1 missing title and DOI, reference 2 complete) satisfies the
position hypothesis, and the frontend pre-selection equals the standard
selection on it. -/
theorem selection_matches_mode_table_witness :
    (∀ (i : Nat) (h : i < scenarioRefs.length),
        (scenarioRefs.get ⟨i, h⟩).index = i)
    ∧ selectNeedingValidation scenarioRefs
        = selectByMode ValidationMode.standard scenarioRefs [2, 0] := by
  refine ⟨by decide, ?_⟩
  exact (selection_matches_mode_table scenarioRefs [2, 0] (by decide)).1

/-- C3: when every enrichment source fails or times out (so no responses
arrive at all), enriching a reference leaves every extracted field
unchanged, produces an all-`unchanged` change list and no error, and
recomputes `missing_fields` so the gaps stay visible; the coordinator run
over the selected references is still consumed by the caller as a
successful completion, never as an error. -/
theorem all_sources_failed_still_complete (r : ParsedReference)
    (refs : List ParsedReference) (hne : refs ≠ []) :
    (enrichReference r []).extracted_fields = r.extracted_fields
    ∧ meaningfulChanges ((enrichReference r []).validation_changes.getD []) = []
    ∧ (enrichReference r []).error = r.error
    ∧ (enrichReference r []).missing_fields
        = computeMissingFields r.extracted_fields
    ∧ consumeFrames (coordinatorRun refs (fun _ => [])) []
        = Except.ok (sortByIndex (refs.map (fun q => enrichReference q []))) := by
  have hproj : ∀ (q : ParsedReference) (responses : List SourceResponse),
      (enrichReference q responses).extracted_fields
          = (applyMerge q.extracted_fields responses).1
      ∧ (enrichReference q responses).validation_changes
          = some (applyMerge q.extracted_fields responses).2
      ∧ (enrichReference q responses).error = q.error
      ∧ (enrichReference q responses).missing_fields
          = computeMissingFields (applyMerge q.extracted_fields responses).1 := by
    intro q responses
    unfold enrichReference
    exact ⟨rfl, rfl, rfl, rfl⟩
  obtain ⟨hf, hv, he, hm⟩ := hproj r []
  refine ⟨?_, ?_, he, ?_, ?_⟩
  · rw [hf, applyMerge_nil]
  · rw [hv, applyMerge_nil]
    exact meaningfulChanges_allUnchanged r.extracted_fields
  · rw [hm, applyMerge_nil]
  · exact coordinatorRun_completes refs (fun _ => []) hne

/-- C3 witness: the scenario batch, with every source failing, is still
consumed as a successful completion. -/
theorem all_sources_failed_still_complete_witness :
    scenarioRefs ≠ []
    ∧ consumeFrames (coordinatorRun scenarioRefs (fun _ => [])) []
        = Except.ok (sortByIndex
            (scenarioRefs.map (fun q => enrichReference q []))) := by
  refine ⟨by simp [scenarioRefs], ?_⟩
  exact (all_sources_failed_still_complete (mkRef 0 "Deep Learning" "" ["doi"])
    scenarioRefs (by simp [scenarioRefs])).2.2.2.2

/-- C6: a coherent batch whose status is `validated` never regresses to
`unvalidated`: `BeginValidation` moves it to `validating` while keeping
the stored result, a stale `CompleteValidation` or `AbortValidation` is
rejected with `Stale`, and a successful re-validation (begin, then
complete with the issued token) stores a new result with status
`validated` again; the frontend short-circuit recognizes an
already-validated batch with a stored result and loads it instead of
issuing a new request. -/
theorem validated_never_regresses (b : BatchState) (t : Nat)
    (r : List ParsedReference)
    (hcoh : TokenCoherent b)
    (hval : b.status = ValidationStatus.validated) :
    (∀ b2, beginValidation b t = Except.ok b2 →
        b2.status = ValidationStatus.validating
        ∧ b2.validation_result = b.validation_result)
    ∧ completeValidation b t r = Except.error BatchErr.Stale
    ∧ abortValidation b t = Except.error BatchErr.Stale
    ∧ (∀ b1 b2, beginValidation b t = Except.ok b1 →
        completeValidation b1 t r = Except.ok b2 →
        b2.status = ValidationStatus.validated
        ∧ b2.validation_result = some r)
    ∧ (∀ rs : List ParsedReference,
        alreadyValidatedShortCircuit "validated" (some rs) = true) := by
  have hne2 : b.status ≠ ValidationStatus.validating := by
    rw [hval]
    exact fun hc => ValidationStatus.noConfusion hc
  have hholder : b.holder = none := hcoh hne2
  have hnotok : ¬ b.holder = some t := by
    rw [hholder]
    exact fun hc => Option.noConfusion hc
  refine ⟨?_, ?_, ?_, ?_, fun rs => rfl⟩
  · intro b2 hb2
    rw [beginValidation, if_neg hne2] at hb2
    injection hb2 with hb2e
    rw [← hb2e]
    exact ⟨rfl, rfl⟩
  · rw [completeValidation, if_neg hnotok]
  · rw [abortValidation, if_neg hnotok]
  · intro b1 b2 h1 h2
    rw [beginValidation, if_neg hne2] at h1
    injection h1 with h1e
    rw [← h1e] at h2
    rw [completeValidation, if_pos rfl] at h2
    injection h2 with h2e
    rw [← h2e]
    exact ⟨rfl, rfl⟩

/-- C6 witness: the concrete validated batch is coherent, and a stale
completion against it is rejected rather than regressing the status. -/
theorem validated_never_regresses_witness :
    TokenCoherent exampleBatch
    ∧ exampleBatch.status = ValidationStatus.validated
    ∧ completeValidation exampleBatch 7 [exampleReference]
        = Except.error BatchErr.Stale := by
  refine ⟨fun _ => rfl, rfl, ?_⟩
  exact (validated_never_regresses exampleBatch 7 [exampleReference]
    (fun _ => rfl) rfl).2.1
